import Mathlib

/-!
Verification of the Markdown rendering core (MarkedPlugin): slug assignment,
highlight validation, rendering-rule overrides and the parse-event pipeline.
Definitions are shallow embeddings of the reviewed TypeScript source; external
collaborators that are only declared there (Slugger, escapeHtml, getTextContent,
the tokenization of the external Markdown engine) are modelled from the spec.
-/

namespace MarkedPlugin

/-- Embedding of JS String.prototype.toLowerCase restricted to basic latin,
applied per character: uppercase A-Z maps to a-z, all else is unchanged. -/
def lowerChar (c : Char) : Char :=
  if 65 ≤ c.toNat ∧ c.toNat ≤ 90 then Char.ofNat (c.toNat + 32) else c

/-- Embedding of JS String.prototype.toLowerCase on whole strings. -/
def jsToLowerCase (s : String) : String :=
  String.mk (s.data.map lowerChar)

/-- Decimal digits of a positive number, most significant first, with fuel
bounding the recursion depth. -/
def natToDecAux : Nat → Nat → List Char
  | 0, _ => []
  | fuel + 1, n => if n = 0 then [] else natToDecAux fuel (n / 10) ++ [Nat.digitChar (n % 10)]

/-- Embedding of the JS number-to-string conversion for naturals (base ten). -/
def natToDec (n : Nat) : String :=
  if n = 0 then "0" else String.mk (natToDecAux n n)

/-- Characters kept by slug serialization: URL-fragment-safe characters. -/
def urlSafeChar (c : Char) : Bool :=
  c.isAlphanum || c = '-' || c = '_'

/-- Collapses each maximal whitespace run to a single hyphen; the flag records
whether the previous character belonged to a whitespace run. -/
def collapseWsAux : List Char → Bool → List Char
  | [], _ => []
  | c :: cs, inRun =>
    if c.isWhitespace then
      if inRun then collapseWsAux cs true else '-' :: collapseWsAux cs true
    else c :: collapseWsAux cs false

/-- Modelled from the spec: the serialization step of the Slugger (declared in
the theme module, outside the reviewed file): lowercase, collapse whitespace
runs to single hyphens, strip characters unsafe for URL fragments. -/
def serialize (text : String) : String :=
  String.mk ((collapseWsAux (jsToLowerCase text).data false).filter urlSafeChar)

/-- Modelled from the spec: per-page mutable Slugger state, the running set of
already-issued slugs. -/
structure Slugger where
  issued : List String
deriving DecidableEq

/-- A fresh Slugger with no issued slugs. -/
def Slugger.new : Slugger := ⟨[]⟩

/-- Largest length of a member of a list of strings. -/
def maxLen : List String → Nat
  | [] => 0
  | s :: rest => max s.length (maxLen rest)

theorem length_le_maxLen {x : String} : ∀ {l : List String}, x ∈ l → x.length ≤ maxLen l
  | s :: rest, h => by
    rcases List.mem_cons.mp h with h1 | h2
    · subst h1; exact Nat.le_max_left _ _
    · exact Nat.le_trans (length_le_maxLen h2) (Nat.le_max_right _ _)

theorem natToDecAux_congr : ∀ (f1 f2 n : Nat), n ≤ f1 → n ≤ f2 →
    natToDecAux f1 n = natToDecAux f2 n
  | 0, f2, n, h1, _ => by
    have hn : n = 0 := Nat.le_zero.mp h1
    subst hn
    cases f2 <;> simp [natToDecAux]
  | f1 + 1, f2, n, h1, h2 => by
    by_cases hn : n = 0
    · subst hn
      cases f2 <;> simp [natToDecAux]
    · have hpos : 0 < n := Nat.pos_of_ne_zero hn
      obtain ⟨f2p, rfl⟩ : ∃ m, f2 = m + 1 := by
        cases f2 with
        | zero => omega
        | succ m => exact ⟨m, rfl⟩
      simp only [natToDecAux, if_neg hn]
      have hd : n / 10 < n := Nat.div_lt_self hpos (by omega)
      rw [natToDecAux_congr f1 f2p (n / 10) (by omega) (by omega)]

theorem natToDec_tenfold {n : Nat} (hn : n ≠ 0) :
    (natToDec (10 * n)).data = (natToDec n).data ++ ['0'] := by
  have h10 : 10 * n ≠ 0 := by positivity
  simp only [natToDec, if_neg hn, if_neg h10]
  have hfuel : 0 < 10 * n := Nat.pos_of_ne_zero h10
  obtain ⟨m, hm⟩ : ∃ m, 10 * n = m + 1 := ⟨10 * n - 1, by omega⟩
  rw [hm]
  simp only [natToDecAux, if_neg (by omega : ¬ m + 1 = 0)]
  have hdiv : (m + 1) / 10 = n := by omega
  have hmod : (m + 1) % 10 = 0 := by omega
  rw [hdiv, hmod]
  rw [natToDecAux_congr m n n (by omega) (Nat.le_refl n)]
  rfl

theorem natToDec_pow_length (m : Nat) : (natToDec (10 ^ m)).length = m + 1 := by
  induction m with
  | zero => rfl
  | succ k ih =>
    have hpow : (10 : Nat) ^ (k + 1) = 10 * 10 ^ k := by ring
    have hne : (10 : Nat) ^ k ≠ 0 := by positivity
    have := natToDec_tenfold hne
    have hlen : (natToDec (10 * 10 ^ k)).data.length = (natToDec (10 ^ k)).data.length + 1 := by
      rw [this]; simp
    rw [hpow]
    have hstr : ∀ s : String, s.length = s.data.length := fun s => rfl
    rw [hstr, hlen, ← hstr, ih]

/-- Modelled from the spec: every set of already-issued slugs leaves some
numeric suffix free, because suffixes of unbounded length exist. -/
theorem exists_free_suffix (issued : List String) (base : String) :
    ∃ k, (base ++ "-" ++ natToDec (k + 1)) ∉ issued := by
  classical
  set M := maxLen issued with hM
  refine ⟨10 ^ M - 1, fun hmem => ?_⟩
  have hk : 10 ^ M - 1 + 1 = 10 ^ M := by
    have : (0:Nat) < 10 ^ M := by positivity
    omega
  have hlenm : (base ++ "-" ++ natToDec (10 ^ M - 1 + 1)).length ≤ M :=
    length_le_maxLen hmem
  rw [hk] at hlenm
  have hexp : (base ++ "-" ++ natToDec (10 ^ M)).length =
      base.length + 1 + (natToDec (10 ^ M)).length := by
    simp [String.length_append]
    rfl
  rw [hexp, natToDec_pow_length] at hlenm
  omega

/-- Modelled from the spec: Slugger.slug (declared in the theme module, outside
the reviewed file). Serializes the text; on collision with the running set of
already-issued slugs it appends -1, -2, and so on, choosing the smallest unused
suffix; the chosen slug joins the issued set. Deterministic given the state. -/
def Slugger.slug (sl : Slugger) (text : String) : String × Slugger :=
  let base := serialize text
  if base ∈ sl.issued then
    let k := Nat.find (exists_free_suffix sl.issued base)
    let s := base ++ "-" ++ natToDec (k + 1)
    (s, ⟨s :: sl.issued⟩)
  else
    (base, ⟨base :: sl.issued⟩)

/-- Outputs of a sequence of slug calls on one instance, in call order. -/
def runSlugs (sl : Slugger) : List String → List String
  | [] => []
  | t :: ts =>
    let p := sl.slug t
    p.1 :: runSlugs p.2 ts

theorem slug_fresh (sl : Slugger) (t : String) : (sl.slug t).1 ∉ sl.issued := by
  unfold Slugger.slug
  by_cases h : serialize t ∈ sl.issued
  · simp only [if_pos h]
    exact Nat.find_spec (exists_free_suffix sl.issued (serialize t))
  · simp only [if_neg h]
    exact h

theorem slug_issued (sl : Slugger) (t : String) :
    (sl.slug t).2.issued = (sl.slug t).1 :: sl.issued := by
  unfold Slugger.slug
  by_cases h : serialize t ∈ sl.issued <;> simp [h]

theorem slug_pos (sl : Slugger) (t : String) (k : Nat)
    (hmem : serialize t ∈ sl.issued)
    (hk : (serialize t ++ "-" ++ natToDec (k + 1)) ∉ sl.issued)
    (hmin : ∀ j, j < k → (serialize t ++ "-" ++ natToDec (j + 1)) ∈ sl.issued) :
    sl.slug t = (serialize t ++ "-" ++ natToDec (k + 1),
      ⟨(serialize t ++ "-" ++ natToDec (k + 1)) :: sl.issued⟩) := by
  unfold Slugger.slug
  simp only [if_pos hmem]
  have hfind : Nat.find (exists_free_suffix sl.issued (serialize t)) = k := by
    rw [Nat.find_eq_iff]
    exact ⟨hk, fun n hn => not_not_intro (hmin n hn)⟩
  rw [hfind]

theorem mem_runSlugs_not_issued (x : String) :
    ∀ (sl : Slugger) (ts : List String), x ∈ runSlugs sl ts → x ∉ sl.issued
  | sl, t :: ts, h => by
    simp only [runSlugs, List.mem_cons] at h
    rcases h with h1 | h2
    · subst h1; exact slug_fresh sl t
    · intro hmem
      have := mem_runSlugs_not_issued x (sl.slug t).2 ts h2
      rw [slug_issued] at this
      exact this (List.mem_cons_of_mem _ hmem)

theorem runSlugs_nodup : ∀ (sl : Slugger) (ts : List String), (runSlugs sl ts).Nodup
  | _, [] => List.nodup_nil
  | sl, t :: ts => by
    simp only [runSlugs, List.nodup_cons]
    refine ⟨fun hmem => ?_, runSlugs_nodup (sl.slug t).2 ts⟩
    have := mem_runSlugs_not_issued (sl.slug t).1 (sl.slug t).2 ts hmem
    rw [slug_issued] at this
    exact this (List.mem_cons_self _ _)

/-- Warnings issued through the logger, named after the i18n keys the source
uses. -/
inductive Warning where
  | custom_theme_does_not_define_getSlugger : Warning
  | unsupported_highlight_language_0_not_highlighted_in_comment_for_1
      (lang doc : String) : Warning
  | unloaded_language_0_not_highlighted_in_comment_for_1 (lang doc : String) : Warning
deriving DecidableEq

/-- Embedding of the module-level getDefaultSlugger: when the shared fallback
instance does not exist yet it is created and a warning is logged; the stored
instance is returned thereafter. The Option argument and the Option in the
result model the module-level mutable variable before and after the call. -/
def getDefaultSlugger : Option Slugger → Slugger × Option Slugger × List Warning
  | none => (Slugger.new, some Slugger.new, [Warning.custom_theme_does_not_define_getSlugger])
  | some s => (s, some s, [])

/-- Embedding of MarkedPlugin.getSlugger: a theme that defines getSlugger
yields the page-scoped instance, otherwise the shared fallback is used. -/
def getSlugger {μ : Type} (theme : Option (μ → Slugger)) (model : μ)
    (global : Option Slugger) : Slugger × Option Slugger × List Warning :=
  match theme with
  | some f => (f model, global, [])
  | none => getDefaultSlugger global

/-- Warnings accumulated over a number of successive getSlugger calls that
thread the module-level fallback state. -/
def getSluggerCalls {μ : Type} (theme : Option (μ → Slugger)) (model : μ) :
    Nat → Option Slugger → List Warning
  | 0, _ => []
  | n + 1, g =>
    let r := getSlugger theme model g
    r.2.2 ++ getSluggerCalls theme model n r.2.1

/-- External highlighting capabilities consumed by the plugin. -/
structure HighlightCaps where
  isSupportedLanguage : String → Bool
  isLoadedLanguage : String → Bool
  highlight : String → String → String

/-- The language default applied by getHighlighted: a missing or empty tag
falls back to typescript, mirroring the JS falsy check. -/
def defaultedLang : Option String → String
  | none => "typescript"
  | some s => if s = "" then "typescript" else s

/-- The tag getHighlighted actually checks: defaulted, then lowercased. -/
def normalizeLang (l : Option String) : String :=
  jsToLowerCase (defaultedLang l)

/-- Embedding of MarkedPlugin.getHighlighted: validates the tag against the
supported and loaded sets and degrades to the unhighlighted text with one
warning; only a fully validated tag reaches the highlight capability. The
function is total, so the method never raises. -/
def getHighlighted (caps : HighlightCaps) (doc : String) (text : String)
    (lang : Option String) : String × List Warning :=
  let l := normalizeLang lang
  if !caps.isSupportedLanguage l then
    (text, [Warning.unsupported_highlight_language_0_not_highlighted_in_comment_for_1 l doc])
  else if !caps.isLoadedLanguage l then
    (text, [Warning.unloaded_language_0_not_highlighted_in_comment_for_1 l doc])
  else
    (caps.highlight text l, [])

/-- Modelled from the spec: the external escapeHtml capability, replacing each
HTML-special character with its entity. -/
def escapeChar (c : Char) : List Char :=
  if c = '&' then "&amp;".data
  else if c = '<' then "&lt;".data
  else if c = '>' then "&gt;".data
  else if c = '"' then "&quot;".data
  else if c = Char.ofNat 39 then String.mk ['&', '#', '3', '9', ';'] |>.data
  else [c]

/-- Modelled from the spec: escapeHtml on whole strings. -/
def escapeHtml (s : String) : String :=
  String.mk (s.data.map escapeChar).flatten

/-- Embedding of code.replace applied to a trailing-newline regex: removes one
trailing newline when present. -/
def trimOneTrailingNewline (s : String) : String :=
  if s.data.getLast? = some '\n' then String.mk s.data.dropLast else s

/-- Embedding of the highlight option installed in setupParser: the code fence
hook. It calls the highlight capability directly with the fence tag or the ts
default, normalizes the trailing newline, and wraps the result; a present tag
becomes the class attribute of the code element, escaped. -/
def fenceHighlight (hl : String → String → String) (code lang : String) : String :=
  let c1 := hl code (if lang = "" then "ts" else lang)
  let c2 := trimOneTrailingNewline c1 ++ "\n"
  if lang = "" then
    "<pre><code>" ++ c2 ++ "</code><button>Copy</button></pre>\n"
  else
    "<pre><code class=\"" ++ escapeHtml lang ++ "\">" ++ c2 ++
      "</code><button type=\"button\">Copy</button></pre>\n"

/-- Removes markup tags from a character list; the flag records being inside a
tag. -/
def stripTagsAux : List Char → Bool → List Char
  | [], _ => []
  | c :: cs, true => if c = '>' then stripTagsAux cs false else stripTagsAux cs true
  | c :: cs, false => if c = '<' then stripTagsAux cs true else c :: stripTagsAux cs false

/-- Modelled from the spec: the external getTextContent capability extracting
the plain text of heading content. -/
def getTextContent (s : String) : String :=
  String.mk (stripTagsAux s.data false)

/-- A page heading entry as pushed onto pageHeadings. -/
structure PageHeading where
  link : String
  text : String
  level : Nat
deriving DecidableEq

/-- The per-render mutable state the heading rule touches: the active Slugger,
the heading list of the current page, and the slug remembered for the paired
closing rule. -/
structure RenderState where
  slugger : Slugger
  pageHeadings : List PageHeading
  lastHeaderSlug : String
deriving DecidableEq

/-- Embedding of the heading_open rule override: one invocation per rendered
heading, given the markup token and the content of the following inline token.
It assigns a slug, appends exactly one entry to pageHeadings, remembers the
slug, and emits the anchor element before the heading tag. -/
def heading_open (st : RenderState) (markup content : String) : RenderState × String :=
  let level := markup.length
  let p := st.slugger.slug content
  ({ slugger := p.2,
     pageHeadings := st.pageHeadings ++
       [{ link := "#md:" ++ p.1, text := getTextContent content, level := level }],
     lastHeaderSlug := p.1 },
   "<a id=\"md:" ++ p.1 ++ "\" class=\"tsd-anchor\"></a><h" ++ natToDec level ++
     " class=\"tsd-anchor-link\">")

/-- Renders a sequence of heading tokens in document order, threading the
state and collecting the emitted HTML. -/
def renderHeadings (st : RenderState) : List (String × String) → RenderState × List String
  | [] => (st, [])
  | (markup, content) :: rest =>
    let p := heading_open st markup content
    let q := renderHeadings p.1 rest
    (q.1, p.2 :: q.2)

/-- Splits a character list into lines at newline characters. -/
def splitLinesAux : List Char → List Char → List (List Char)
  | [], acc => [acc.reverse]
  | c :: cs, acc =>
    if c = '\n' then acc.reverse :: splitLinesAux cs [] else splitLinesAux cs (c :: acc)

/-- Removes leading and trailing whitespace from a character list. -/
def trimChars (l : List Char) : List Char :=
  ((l.dropWhile Char.isWhitespace).reverse.dropWhile Char.isWhitespace).reverse

/-- Modelled from the spec: the tokenization performed by the external Markdown
engine, restricted to documents of ATX headings and blank lines, producing for
each heading its markup (the run of leading marker characters) and its content. -/
def headingTokensOf (input : String) : List (String × String) :=
  (splitLinesAux input.data []).filterMap fun line =>
    let hashes := line.takeWhile (fun c => c = '#')
    if hashes.length ≥ 1 ∧ hashes.length ≤ 6 ∧
        (line.drop hashes.length = [] ∨ (line.drop hashes.length).head? = some ' ') then
      some (String.mk hashes, String.mk (trimChars (line.drop hashes.length)))
    else
      none

/-- A fresh render state for one page render pass. -/
def RenderState.new : RenderState := ⟨Slugger.new, [], ""⟩

/-- Renders the headings of a Markdown document against a fresh page. -/
def renderPageHeadings (input : String) : RenderState × List String :=
  renderHeadings RenderState.new (headingTokensOf input)

/-- A rendering-engine token with its attribute list. -/
structure Token where
  attrs : List (String × String)
deriving DecidableEq

/-- Embedding of token.attrGet. -/
def attrGet (t : Token) (name : String) : Option String :=
  t.attrs.lookup name

/-- Replaces the value of an attribute, appending it when absent. -/
def setAttr : List (String × String) → String → String → List (String × String)
  | [], n, v => [(n, v)]
  | (a, b) :: rest, n, v => if a = n then (n, v) :: rest else (a, b) :: setAttr rest n v

/-- Embedding of token.attrSet. -/
def attrSet (t : Token) (n v : String) : Token :=
  ⟨setAttr t.attrs n v⟩

/-- True when the regex fragment matching can start at this character list: it
is nonempty and does not begin with a newline. -/
def headOk : List Char → Bool
  | [] => false
  | c :: _ => c != '\n'

/-- Embedding of the href replace call of the link_open rule: the anchored
regex matches a hash, an optional md: prefix, then at least one character not a
newline, greedily to the end of the line, and the replacement reinstates the
md: prefix before the captured text, the unmatched tail staying in place, so
every successful match yields the hash and md: prefix followed by everything
after the consumed prefix. When the optional prefix is consumed but nothing is
left to capture, the regex engine backtracks and captures the prefix
characters themselves. -/
def rewriteHref (href : String) : String :=
  if href.data.head? = some '#' then
    let rest := href.data.tail
    if rest.take 3 = ['m', 'd', ':'] then
      if headOk (rest.drop 3) then String.mk ("#md:".data ++ rest.drop 3)
      else String.mk ("#md:".data ++ rest)
    else if headOk rest then String.mk ("#md:".data ++ rest) else href
  else href

/-- Embedding of the link_open rule override: reads the href attribute if
present, rewrites it, and stores the result back when it is truthy. -/
def link_open (t : Token) : Token :=
  match attrGet t "href" with
  | none => t
  | some h =>
    let h2 := rewriteHref h
    if h2 = "" then t else attrSet t "href" h2

/-- Embedding of MarkdownEvent: the page, the original text and the mutable
parsed text. -/
structure MarkdownEvent (π : Type) where
  page : π
  originalText : String
  parsedText : String

/-- Embedding of the event dispatch: subscribers run in registration order,
each receiving the event as left by the previous one. -/
def trigger {π : Type} : List (MarkdownEvent π → MarkdownEvent π) →
    MarkdownEvent π → MarkdownEvent π
  | [], e => e
  | f :: fs, e => trigger fs (f e)

/-- Embedding of MarkedPlugin.parseMarkdown: structured rich-text input is
flattened by the external displayPartsToMarkdown capability, a parse event is
constructed with parsedText initially equal to originalText, the event is
dispatched, and the final parsedText is returned. -/
def parseMarkdown {π Parts : Type} (displayPartsToMarkdown : Parts → String)
    (subs : List (MarkdownEvent π → MarkdownEvent π))
    (input : String ⊕ Parts) (page : π) : String :=
  let md : String :=
    match input with
    | Sum.inl s => s
    | Sum.inr p => displayPartsToMarkdown p
  (trigger subs { page := page, originalText := md, parsedText := md }).parsedText

theorem mk_data (s : String) : String.mk s.data = s := by
  cases s
  rfl

theorem mk_cons_ne_empty (c : Char) (l : List Char) : String.mk (c :: l) ≠ "" := by
  intro h
  have : (String.mk (c :: l)).data = ("" : String).data := by rw [h]
  simp at this

theorem toNat_ofNat_valid {m : Nat} (h : m.isValidChar) : (Char.ofNat m).toNat = m := by
  rw [Char.ofNat, dif_pos h]
  rfl

theorem lowerChar_idem (c : Char) : lowerChar (lowerChar c) = lowerChar c := by
  unfold lowerChar
  by_cases h : 65 ≤ c.toNat ∧ c.toNat ≤ 90
  · have hv : (Char.ofNat (c.toNat + 32)).toNat = c.toNat + 32 :=
      toNat_ofNat_valid (Or.inl (by omega))
    have hrange : ¬(65 ≤ (Char.ofNat (c.toNat + 32)).toNat ∧
        (Char.ofNat (c.toNat + 32)).toNat ≤ 90) := by
      rw [hv]; omega
    rw [if_pos h, if_neg hrange]
  · rw [if_neg h, if_neg h]

theorem map_lowerChar_idem (l : List Char) :
    (l.map lowerChar).map lowerChar = l.map lowerChar := by
  induction l with
  | nil => rfl
  | cons c cs ih => simp [lowerChar_idem, ih]

theorem jsToLowerCase_idem (s : String) :
    jsToLowerCase (jsToLowerCase s) = jsToLowerCase s := by
  unfold jsToLowerCase
  exact congrArg String.mk (map_lowerChar_idem s.data)

theorem jsToLowerCase_empty_iff (s : String) : jsToLowerCase s = "" ↔ s = "" := by
  cases s with
  | mk l =>
    constructor
    · intro h
      have hd : (jsToLowerCase (String.mk l)).data = ("" : String).data := by rw [h]
      simp [jsToLowerCase] at hd
      simp [hd]
    · intro h
      rw [h]
      rfl

theorem attrGet_attrSet (t : Token) (n v : String) : attrGet (attrSet t n v) n = some v := by
  cases t with
  | mk attrs =>
    simp only [attrGet, attrSet]
    induction attrs with
    | nil => simp [setAttr, List.lookup]
    | cons p rest ih =>
      by_cases h : p.1 = n
      · simp [setAttr, h, List.lookup]
      · cases p with
        | mk a b =>
          simp only at h
          have hne : (n == a) = false := by
            simp [beq_iff_eq]
            intro hc
            exact h hc.symm
          simp [setAttr, h, List.lookup, ih, hne]

theorem trigger_append {π : Type} (fs : List (MarkdownEvent π → MarkdownEvent π))
    (g : MarkdownEvent π → MarkdownEvent π) (e : MarkdownEvent π) :
    trigger (fs ++ [g]) e = g (trigger fs e) := by
  induction fs generalizing e with
  | nil => rfl
  | cons f fs ih => simp [trigger, ih]

theorem getSluggerCalls_some {μ : Type} (model : μ) :
    ∀ (n : Nat) (s : Slugger),
      getSluggerCalls (none : Option (μ → Slugger)) model n (some s) = []
  | 0, _ => rfl
  | n + 1, s => by
    simp [getSluggerCalls, getSlugger, getDefaultSlugger, getSluggerCalls_some model n s]

theorem slugTitle1 : Slugger.new.slug "Title" = ("title", ⟨["title"]⟩) := by decide

theorem slugTitle2 : Slugger.slug ⟨["title"]⟩ "Title" = ("title-1", ⟨["title-1", "title"]⟩) := by
  have h := slug_pos ⟨["title"]⟩ "Title" 0 (by decide) (by decide)
    (fun j hj => absurd hj (by omega))
  rw [h]; decide

theorem slugTitle3 : Slugger.slug ⟨["title-1", "title"]⟩ "Title" =
    ("title-2", ⟨["title-2", "title-1", "title"]⟩) := by
  have h := slug_pos ⟨["title-1", "title"]⟩ "Title" 1 (by decide) (by decide)
    (fun j hj => by interval_cases j; decide)
  rw [h]; decide

theorem renderHeadings_append (st : RenderState) (toks : List (String × String)) :
    ∃ entries, (renderHeadings st toks).1.pageHeadings = st.pageHeadings ++ entries ∧
      entries.length = toks.length := by
  induction toks generalizing st with
  | nil => exact ⟨[], by simp [renderHeadings]⟩
  | cons tk rest ih =>
    cases tk with
    | mk markup content =>
      obtain ⟨entries, he, hlen⟩ := ih (heading_open st markup content).1
      refine ⟨{ link := "#md:" ++ (st.slugger.slug content).1,
                text := getTextContent content,
                level := markup.length } :: entries, ?_, by simp [hlen]⟩
      simp only [renderHeadings]
      rw [he]
      simp [heading_open]

theorem normalizeLang_lower (lang : String) :
    normalizeLang (some lang) = normalizeLang (some (jsToLowerCase lang)) := by
  by_cases h : lang = ""
  · subst h; rfl
  · have h2 : ¬ jsToLowerCase lang = "" := fun hc => h ((jsToLowerCase_empty_iff lang).mp hc)
    simp only [normalizeLang, defaultedLang, if_neg h, if_neg h2]
    exact (jsToLowerCase_idem lang).symm

/-- C1: every heading_open invocation appends exactly one entry to the page
heading list, with link equal to the hash and md: prefix followed by the slug
assigned to the heading content; rendering a token sequence appends one entry
per heading in document order; and the document consisting of two identical
Title headings produces exactly the two stated entries. -/
theorem c1_heading_rule :
    (∀ st markup content, (heading_open st markup content).1.pageHeadings =
      st.pageHeadings ++
        [{ link := "#md:" ++ (st.slugger.slug content).1,
           text := getTextContent content,
           level := markup.length }]) ∧
    (∀ st toks, ∃ entries,
      (renderHeadings st toks).1.pageHeadings = st.pageHeadings ++ entries ∧
      entries.length = toks.length) ∧
    (renderPageHeadings "# Title\n\n# Title").1.pageHeadings =
      [{ link := "#md:title", text := "Title", level := 1 },
       { link := "#md:title-1", text := "Title", level := 1 }] := by
  refine ⟨fun st markup content => by simp [heading_open], renderHeadings_append, ?_⟩
  have htok : headingTokensOf "# Title\n\n# Title" = [("#", "Title"), ("#", "Title")] := by
    decide
  rw [renderPageHeadings, htok]
  simp only [renderHeadings, heading_open, RenderState.new, slugTitle1, slugTitle2]
  decide

/-- C2: slug is a pure function of the instance state, hence deterministic
given the sequence of prior calls; a fresh instance answers three identical
Title calls with title, title-1, title-2, the strictly increasing numeric
suffixes; and no two calls on the same instance ever return equal values. -/
theorem c2_slugger_unique :
    runSlugs Slugger.new ["Title", "Title", "Title"] = ["title", "title-1", "title-2"] ∧
    (∀ sl ts, (runSlugs sl ts).Nodup) := by
  constructor
  · simp only [runSlugs, slugTitle1, slugTitle2, slugTitle3]
  · exact runSlugs_nodup

/-- C9: getHighlighted matches the language tag case-insensitively: its result
for any tag equals its result for the lowercased tag. -/
theorem c9_case_insensitive :
    ∀ caps doc text lang, getHighlighted caps doc text (some lang) =
      getHighlighted caps doc text (some (jsToLowerCase lang)) := by
  intro caps doc text lang
  unfold getHighlighted
  rw [normalizeLang_lower]

/-- C10: a link token whose href attribute is exactly the hash character is
left unchanged by the link_open rule, because the rewrite pattern needs at
least one character after the optional md: prefix. -/
theorem c10_bare_hash_unchanged :
    (∀ t, attrGet t "href" = some "#" → attrGet (link_open t) "href" = some "#") ∧
    rewriteHref "#" = "#" := by
  have hrw : rewriteHref "#" = "#" := by decide
  refine ⟨fun t h => ?_, hrw⟩
  simp only [link_open, h, hrw]
  rw [if_neg (by decide : ¬("#" : String) = "")]
  exact attrGet_attrSet t "href" "#"

/-- Witness for C10 at the concrete token carrying the bare hash href. -/
theorem c10_bare_hash_unchanged_witness :
    attrGet (link_open ⟨[("href", "#")]⟩) "href" = some "#" :=
  c10_bare_hash_unchanged.1 ⟨[("href", "#")]⟩ (by decide)

theorem rewriteHref_md (rest : List Char) (h3 : rest.take 3 = ['m', 'd', ':'])
    (hok : headOk (rest.drop 3) = true) :
    rewriteHref (String.mk ('#' :: rest)) = String.mk ("#md:".data ++ rest.drop 3) := by
  unfold rewriteHref
  have hd : (String.mk ('#' :: rest)).data = '#' :: rest := rfl
  simp only [hd, List.head?_cons, List.tail_cons]
  simp only [if_true]
  rw [if_pos h3, if_pos hok]

theorem rewriteHref_plain (rest : List Char) (h3 : rest.take 3 ≠ ['m', 'd', ':'])
    (hok : headOk rest = true) :
    rewriteHref (String.mk ('#' :: rest)) = String.mk ("#md:".data ++ rest) := by
  unfold rewriteHref
  have hd : (String.mk ('#' :: rest)).data = '#' :: rest := rfl
  simp only [hd, List.head?_cons, List.tail_cons]
  simp only [if_true]
  rw [if_neg h3, if_pos hok]

theorem rewriteHref_nonfrag (s : String) (h : s.data.head? ≠ some '#') :
    rewriteHref s = s := by
  unfold rewriteHref
  rw [if_neg h]

theorem link_open_some (t : Token) (h : String) (hattr : attrGet t "href" = some h) :
    link_open t = if rewriteHref h = "" then t else attrSet t "href" (rewriteHref h) := by
  simp only [link_open, hattr]

/-- C3: the link_open rule rewrites a fragment href matching a hash, an
optional md: prefix and then text, into the hash and md: prefix followed by
that text; both plain fragments and already-prefixed fragments end up
prefixed, and a non-fragment href passes through with its value unchanged. -/
theorem c3_link_rewrite :
    (∀ t rest, attrGet t "href" = some (String.mk ('#' :: rest)) →
      rest.take 3 = ['m', 'd', ':'] → headOk (rest.drop 3) = true →
      attrGet (link_open t) "href" = some (String.mk ("#md:".data ++ rest.drop 3))) ∧
    (∀ t rest, attrGet t "href" = some (String.mk ('#' :: rest)) →
      rest.take 3 ≠ ['m', 'd', ':'] → headOk rest = true →
      attrGet (link_open t) "href" = some (String.mk ("#md:".data ++ rest))) ∧
    (∀ t s, attrGet t "href" = some s → s.data.head? ≠ some '#' →
      attrGet (link_open t) "href" = some s) ∧
    rewriteHref "#foo" = "#md:foo" ∧
    rewriteHref "#md:foo" = "#md:foo" ∧
    rewriteHref "https://example.com" = "https://example.com" := by
  refine ⟨fun t rest hattr h3 hok => ?_, fun t rest hattr h3 hok => ?_,
    fun t s hattr h => ?_, by decide, by decide, by decide⟩
  · rw [link_open_some t _ hattr, rewriteHref_md rest h3 hok,
      if_neg (show String.mk ("#md:".data ++ List.drop 3 rest) ≠ "" from
        mk_cons_ne_empty '#' ("md:".data ++ rest.drop 3))]
    exact attrGet_attrSet t "href" _
  · rw [link_open_some t _ hattr, rewriteHref_plain rest h3 hok,
      if_neg (show String.mk ("#md:".data ++ rest) ≠ "" from
        mk_cons_ne_empty '#' ("md:".data ++ rest))]
    exact attrGet_attrSet t "href" _
  · rw [link_open_some t s hattr, rewriteHref_nonfrag s h]
    by_cases hs : s = ""
    · rw [if_pos hs, hattr, hs]
    · rw [if_neg hs]
      exact attrGet_attrSet t "href" s

/-- Witness for C3 at concrete tokens with plain, prefixed and external hrefs. -/
theorem c3_link_rewrite_witness :
    attrGet (link_open ⟨[("href", "#foo")]⟩) "href" = some "#md:foo" ∧
    attrGet (link_open ⟨[("href", "#md:foo")]⟩) "href" = some "#md:foo" ∧
    attrGet (link_open ⟨[("href", "https://example.com")]⟩) "href" =
      some "https://example.com" := by
  refine ⟨?_, ?_, ?_⟩
  · have h := c3_link_rewrite.2.1 ⟨[("href", "#foo")]⟩ "foo".data
      (by decide) (by decide) (by decide)
    rw [(by decide : String.mk ("#md:".data ++ "foo".data) = "#md:foo")] at h
    exact h
  · have h := c3_link_rewrite.1 ⟨[("href", "#md:foo")]⟩ "md:foo".data
      (by decide) (by decide) (by decide)
    rw [(by decide : String.mk ("#md:".data ++ "md:foo".data.drop 3) = "#md:foo")] at h
    exact h
  · exact c3_link_rewrite.2.2.1 ⟨[("href", "https://example.com")]⟩
      "https://example.com" (by decide) (by decide)

/-- C4: getHighlighted with an unsupported language returns the text unchanged
with exactly the one warning naming the normalized language and the document;
with a supported but unloaded language it returns the text unchanged with the
distinct unloaded warning; the embedding is a total function, so the method
never raises. -/
theorem c4_highlight_degrades :
    (∀ caps doc text lang,
      caps.isSupportedLanguage (normalizeLang lang) = false →
      getHighlighted caps doc text lang =
        (text, [Warning.unsupported_highlight_language_0_not_highlighted_in_comment_for_1
          (normalizeLang lang) doc])) ∧
    (∀ caps doc text lang,
      caps.isSupportedLanguage (normalizeLang lang) = true →
      caps.isLoadedLanguage (normalizeLang lang) = false →
      getHighlighted caps doc text lang =
        (text, [Warning.unloaded_language_0_not_highlighted_in_comment_for_1
          (normalizeLang lang) doc])) ∧
    (∀ l d, Warning.unsupported_highlight_language_0_not_highlighted_in_comment_for_1 l d ≠
      Warning.unloaded_language_0_not_highlighted_in_comment_for_1 l d) := by
  refine ⟨fun caps doc text lang h => ?_, fun caps doc text lang h1 h2 => ?_,
    fun l d => by simp⟩
  · simp [getHighlighted, h]
  · simp [getHighlighted, h1, h2]

/-- A concrete capability set for witnesses: go is supported, nothing is
loaded, highlighting is the identity. -/
def capsGo : HighlightCaps :=
  ⟨fun l => l == "go", fun _ => false, fun t _ => t⟩

/-- Witness for C4 at the unsupported cobol tag and the supported but unloaded
go tag. -/
theorem c4_highlight_degrades_witness :
    getHighlighted capsGo "Doc" "x" (some "cobol") =
      ("x", [Warning.unsupported_highlight_language_0_not_highlighted_in_comment_for_1
        "cobol" "Doc"]) ∧
    getHighlighted capsGo "Doc" "x" (some "go") =
      ("x", [Warning.unloaded_language_0_not_highlighted_in_comment_for_1 "go" "Doc"]) := by
  constructor
  · have h := c4_highlight_degrades.1 capsGo "Doc" "x" (some "cobol") (by decide)
    rw [(by decide : normalizeLang (some "cobol") = "cobol")] at h
    exact h
  · have h := c4_highlight_degrades.2.1 capsGo "Doc" "x" (some "go") (by decide) (by decide)
    rw [(by decide : normalizeLang (some "go") = "go")] at h
    exact h

/-- C5: the fence hook trims one trailing newline from the highlighter result
and re-appends exactly one; without a language tag it emits the bare block
with the copy control and no class attribute, and with a tag the code element
carries a class attribute equal to the escaped tag. -/
theorem c5_fence_wrapping :
    (∀ hl code, fenceHighlight hl code "" =
      "<pre><code>" ++ (trimOneTrailingNewline (hl code "ts") ++ "\n") ++
        "</code><button>Copy</button></pre>\n") ∧
    (∀ hl code lang, lang ≠ "" → fenceHighlight hl code lang =
      "<pre><code class=\"" ++ escapeHtml lang ++ "\">" ++
        (trimOneTrailingNewline (hl code lang) ++ "\n") ++
        "</code><button type=\"button\">Copy</button></pre>\n") ∧
    (∀ s, trimOneTrailingNewline (s ++ "\n") = s) ∧
    (∀ s, s.data.getLast? ≠ some '\n' → trimOneTrailingNewline s = s) ∧
    escapeHtml "go" = "go" := by
  refine ⟨fun hl code => by simp [fenceHighlight],
    fun hl code lang h => by simp [fenceHighlight, h],
    fun s => ?_, fun s h => by simp [trimOneTrailingNewline, h], by decide⟩
  unfold trimOneTrailingNewline
  have hd : (s ++ "\n").data = s.data ++ ['\n'] := by
    simp [String.data_append]
  simp only [hd, List.getLast?_concat, List.dropLast_concat]
  simp only [if_true]

/-- Witness for C5 at an identity highlighter and the go tag. -/
theorem c5_fence_wrapping_witness :
    fenceHighlight (fun c _ => c) "x" "go" =
      "<pre><code class=\"go\">x\n</code><button type=\"button\">Copy</button></pre>\n" := by
  rw [c5_fence_wrapping.2.1 (fun c _ => c) "x" "go" (by decide)]
  decide

/-- C6: even when the supported-language predicate rejects the tag, so that the
validated getHighlighted method returns the text unhighlighted, the fence hook
still wraps the raw output of the highlight capability invoked with the fence
tag, or the ts default when the tag is absent: it consults no validation. -/
theorem c6_fence_bypasses_validation :
    ∀ caps doc text lang,
      caps.isSupportedLanguage (normalizeLang (some lang)) = false →
      (getHighlighted caps doc text (some lang)).1 = text ∧
      fenceHighlight caps.highlight text lang =
        (if lang = "" then "<pre><code>"
         else "<pre><code class=\"" ++ escapeHtml lang ++ "\">") ++
          (trimOneTrailingNewline (caps.highlight text (if lang = "" then "ts" else lang)) ++
            "\n") ++
          (if lang = "" then "</code><button>Copy</button></pre>\n"
           else "</code><button type=\"button\">Copy</button></pre>\n") := by
  intro caps doc text lang h
  constructor
  · simp [getHighlighted, h]
  · by_cases hl : lang = "" <;> simp [fenceHighlight, hl]

/-- A capability set for the C6 witness: no language is supported, the
highlighter brackets its input with the tag. -/
def capsNone : HighlightCaps :=
  ⟨fun _ => false, fun _ => false, fun t l => "[" ++ l ++ "]" ++ t⟩

/-- Witness for C6 at the unsupported cobol tag: the adapter degrades while the
fence output still embeds the raw highlighter result. -/
theorem c6_fence_bypasses_validation_witness :
    (getHighlighted capsNone "Doc" "x" (some "cobol")).1 = "x" ∧
    fenceHighlight capsNone.highlight "x" "cobol" =
      "<pre><code class=\"cobol\">[cobol]x\n</code><button type=\"button\">Copy</button></pre>\n" := by
  have h := c6_fence_bypasses_validation capsNone "Doc" "x" "cobol" (by decide)
  exact ⟨h.1, by rw [h.2]; decide⟩

/-- C7: without a theme-provided page-scoped slug generator, getSlugger falls
back to the lazily created shared instance; over any positive number of calls
the warning is logged exactly once, on the first call, and later calls return
the stored instance silently. -/
theorem c7_fallback_warns_once :
    (∀ (μ : Type) (model : μ) (n : Nat), 1 ≤ n →
      getSluggerCalls (none : Option (μ → Slugger)) model n none =
        [Warning.custom_theme_does_not_define_getSlugger]) ∧
    (∀ s, getDefaultSlugger (some s) = (s, some s, [])) ∧
    (getDefaultSlugger none).2.1 = some Slugger.new := by
  refine ⟨fun μ model n hn => ?_, fun s => rfl, rfl⟩
  obtain ⟨m, rfl⟩ : ∃ m, n = m + 1 := ⟨n - 1, by omega⟩
  simp [getSluggerCalls, getSlugger, getDefaultSlugger,
    getSluggerCalls_some model m Slugger.new]

/-- Witness for C7 over three consecutive fallback calls. -/
theorem c7_fallback_warns_once_witness :
    getSluggerCalls (none : Option (Unit → Slugger)) () 3 none =
      [Warning.custom_theme_does_not_define_getSlugger] :=
  c7_fallback_warns_once.1 Unit () 3 (by omega)

/-- C8: parseMarkdown builds its event with parsedText initially equal to
originalText, the flattened Markdown source, dispatches it to the subscribers
in registration order, and returns the parsedText left by the last subscriber
unchanged. -/
theorem c8_parse_event_pipeline :
    (∀ (π Parts : Type) (dptm : Parts → String)
        (subs : List (MarkdownEvent π → MarkdownEvent π))
        (input : String ⊕ Parts) (page : π),
      ∃ e0 : MarkdownEvent π, e0.parsedText = e0.originalText ∧
        parseMarkdown dptm subs input page = (trigger subs e0).parsedText) ∧
    (∀ (π : Type) (f : MarkdownEvent π → MarkdownEvent π) fs e,
      trigger (f :: fs) e = trigger fs (f e)) ∧
    (∀ (π : Type) fs (g : MarkdownEvent π → MarkdownEvent π) e,
      trigger (fs ++ [g]) e = g (trigger fs e)) ∧
    (∀ (π Parts : Type) (dptm : Parts → String) fs
        (g : MarkdownEvent π → MarkdownEvent π) (input : String ⊕ Parts) (page : π),
      ∃ e0 : MarkdownEvent π, e0.parsedText = e0.originalText ∧
        parseMarkdown dptm (fs ++ [g]) input page = (g (trigger fs e0)).parsedText) := by
  refine ⟨?_, fun π f fs e => rfl, fun π fs g e => trigger_append fs g e, ?_⟩
  · intro π Parts dptm subs input page
    cases input with
    | inl s => exact ⟨⟨page, s, s⟩, rfl, rfl⟩
    | inr p => exact ⟨⟨page, dptm p, dptm p⟩, rfl, rfl⟩
  · intro π Parts dptm fs g input page
    cases input with
    | inl s =>
      refine ⟨⟨page, s, s⟩, rfl, ?_⟩
      show (trigger (fs ++ [g]) ⟨page, s, s⟩).parsedText = _
      rw [trigger_append]
    | inr p =>
      refine ⟨⟨page, dptm p, dptm p⟩, rfl, ?_⟩
      show (trigger (fs ++ [g]) ⟨page, dptm p, dptm p⟩).parsedText = _
      rw [trigger_append]

end MarkedPlugin
